import Mathlib

/-!
Verification of the Threpsi AI core (`src/app.py`): a shallow embedding of
the model gateway, classifier, response formatter and per-tool routing
logic, with theorems settling the specification's claims about them.

Python strings are modelled as `List Char`; the outcome of one call to the
external generative model is modelled as an `Except` value supplied by a
transport stub, since the network itself is outside the program.
-/

namespace Threpsi

abbrev Str := List Char

def str (s : String) : Str := s.toList

/-! ### Python `str.strip()` -/

/-- The characters Python's `str.strip()` removes (`str.isspace()`). -/
def isPySpace (c : Char) : Bool :=
  c.toNat == 0x09 || c.toNat == 0x0A || c.toNat == 0x0B || c.toNat == 0x0C ||
  c.toNat == 0x0D || c.toNat == 0x1C || c.toNat == 0x1D || c.toNat == 0x1E ||
  c.toNat == 0x1F || c.toNat == 0x20 || c.toNat == 0x85 || c.toNat == 0xA0 ||
  c.toNat == 0x1680 || (0x2000 ≤ c.toNat && c.toNat ≤ 0x200A) ||
  c.toNat == 0x2028 || c.toNat == 0x2029 || c.toNat == 0x202F ||
  c.toNat == 0x205F || c.toNat == 0x3000

/-- Python `s.strip()`: drop leading and trailing whitespace. -/
def pyStrip (s : Str) : Str :=
  ((s.dropWhile isPySpace).reverse.dropWhile isPySpace).reverse

/-! ### ModelGateway (`get_ai_response`, app.py lines 53-60)

The code builds `content = [prompt, image] if image else [prompt]`, calls
`model.generate_content(content)` exactly once inside `try`, returns
`response.text` on success and the fixed placeholder on any exception. -/

def unavailableMsg : Str := str "⚠️ AI service temporarily unavailable."

/-- The result `get_ai_response` produces from the outcome of the single
`generate_content` call it makes. -/
def get_ai_response (outcome : Except Str Str) : Str :=
  match outcome with
  | .ok t => t
  | .error _ => unavailableMsg

/-- `get_ai_response` driven by a transport stub giving the outcome of each
attempt (attempt `i` has outcome `transport i`).  The source performs exactly
one `model.generate_content` call (attempt 0) inside its `try` block, so the
pair returned is (result, number of attempts made). -/
def get_ai_response_run (transport : Nat → Except Str Str) : Str × Nat :=
  (get_ai_response (transport 0), 1)

/-! ### Classifier (`classify_input`, app.py lines 27-50)

The code appends the image part when `image` is truthy and the text part
when `text` is truthy (Python: `None` and `""` are falsy), makes one
`generate_content` call, returns `res.text.strip()` on success and the
string `"Unknown"` on any exception. -/

inductive Part
  | promptPart (p : Str)
  | imagePart
  | textPart (t : Str)
  deriving DecidableEq

def classifyPrompt : Str :=
  str "\n    Identify the type of the input.\n    Respond with ONLY one word:\n    Prescription, LabReport, Food, Symptoms, Unknown\n    "

/-- The `content` list `classify_input` sends: prompt, then the image part
if an image is supplied, then the text part if `text` is truthy. -/
def classify_content (image : Bool) (text : Option Str) : List Part :=
  [Part.promptPart classifyPrompt]
    ++ (if image then [Part.imagePart] else [])
    ++ (match text with
        | some t => if t = [] then [] else [Part.textPart t]
        | none => [])

/-- The label `classify_input` returns from the outcome of its single
`generate_content` call: `res.text.strip()` on success, `"Unknown"` on
any exception. -/
def classify_input (outcome : Except Str Str) : Str :=
  match outcome with
  | .ok res => pyStrip res
  | .error _ => str "Unknown"

/-! ### ResponseFormatter (`patch_medicine_links`, app.py lines 62-68)

`re.compile(r"\*\*Brand Medicine:\*\* (.*?)\n", re.IGNORECASE)` and
`pattern.sub(replace, text)` where `replace` strips the captured name,
builds `https://www.1mg.com/search/all?name={quote_plus(name)}` and emits
`**Brand Medicine:** [{name}]({link}) 🔗\n`. -/

def labelChars : Str := str "**Brand Medicine:** "

/-- Case-insensitive (ASCII, as `re.IGNORECASE` on this all-ASCII pattern)
match of the pattern characters against the head of `s`; on success return
the rest of `s`. -/
def ciPrefStrip : Str → Str → Option Str
  | [], s => some s
  | _ :: _, [] => none
  | p :: ps, c :: cs => if p.toLower = c.toLower then ciPrefStrip ps cs else none

/-- Split at the first newline: `(.*?)\n` with `.` not matching `\n`. -/
def splitAtNL : Str → Option (Str × Str)
  | [] => none
  | c :: cs =>
    if c = '\n' then some ([], cs)
    else
      match splitAtNL cs with
      | some (l, r) => some (c :: l, r)
      | none => none

/-- One regex-match attempt at the current position: the label (case
insensitively) followed by a newline-free capture and a newline.  Returns
(captured group, input after the match). -/
def matchMarker (s : Str) : Option (Str × Str) :=
  (ciPrefStrip labelChars s).bind splitAtNL

/-! #### `urllib.parse.quote_plus` -/

/-- The characters `quote_plus` leaves unescaped (ASCII alphanumerics and
`_.-~`; note `quote_plus` uses `safe=''`). -/
def isSafeChar (c : Char) : Bool :=
  c.isAlphanum || c = '_' || c = '.' || c = '-' || c = '~'

/-- UTF-8 encoding of one character, as the list of its byte values. -/
def utf8Bytes (c : Char) : List Nat :=
  let n := c.toNat
  if n < 0x80 then [n]
  else if n < 0x800 then [0xC0 + n / 64, 0x80 + n % 64]
  else if n < 0x10000 then [0xE0 + n / 4096, 0x80 + n / 64 % 64, 0x80 + n % 64]
  else [0xF0 + n / 262144, 0x80 + n / 4096 % 64, 0x80 + n / 64 % 64, 0x80 + n % 64]

def hexDigitChar (n : Nat) : Char :=
  if n < 10 then Char.ofNat (48 + n) else Char.ofNat (55 + n)

def pctEncByte (b : Nat) : Str := ['%', hexDigitChar (b / 16), hexDigitChar (b % 16)]

def pctEnc : List Nat → Str
  | [] => []
  | b :: bs => pctEncByte b ++ pctEnc bs

def encodeChar (c : Char) : Str :=
  if isSafeChar c then [c]
  else if c = ' ' then ['+']
  else pctEnc (utf8Bytes c)

/-- `urllib.parse.quote_plus`: safe characters kept, space becomes `+`,
everything else percent-encoded byte by byte (UTF-8, uppercase hex). -/
def quote_plus : Str → Str
  | [] => []
  | c :: cs => encodeChar c ++ quote_plus cs

/-- The literal chunk between the link text and the query value in the
replacement `[{name}](https://www.1mg.com/search/all?name={quote_plus name})`;
it is also the distinctive substring marking one generated markdown link. -/
def linkPat : Str := str "](https://www.1mg.com/search/all?name="

/-- The replacement emitted for one matched marker, capture `rawName`:
`f"**Brand Medicine:** [{name}]({link}) 🔗\n"` with `name = rawName.strip()`
and `link = f"https://www.1mg.com/search/all?name={quote_plus(name)}"`. -/
def mkLink (rawName : Str) : Str :=
  let name := pyStrip rawName
  str "**Brand Medicine:** [" ++ name ++ linkPat ++ quote_plus name ++ str ") 🔗\n"

/-- The left-to-right, non-overlapping `pattern.sub` scan, fuelled by the
input length (one unit of fuel per position advanced, and a match always
advances at least one position). -/
def patchGo : Nat → Str → Str
  | _, [] => []
  | 0, s => s
  | fuel + 1, c :: rest =>
    match matchMarker (c :: rest) with
    | some (name, after) => mkLink name ++ patchGo fuel after
    | none => c :: patchGo fuel rest

/-- `patch_medicine_links`: substitute every marker occurrence. -/
def patch_medicine_links (s : Str) : Str := patchGo s.length s

/-- Number of substitutions `pattern.sub` performs on `s` (same scan as
`patchGo`). -/
def markerCountGo : Nat → Str → Nat
  | _, [] => 0
  | 0, _ => 0
  | fuel + 1, c :: rest =>
    match matchMarker (c :: rest) with
    | some (_, after) => 1 + markerCountGo fuel after
    | none => markerCountGo fuel rest

def markerCount (s : Str) : Nat := markerCountGo s.length s

/-! ### ToolRouter (the four tool branches of `main`, app.py lines 134-234)

Each tool branch calls `classify_input`, compares the returned label with
the tool's expected label, shows the branch's mismatch message when they
differ, and otherwise makes the analysis `get_ai_response` call — only the
`rx` branch pipes that result through `patch_medicine_links`. -/

inductive Tool
  | rx | lab | food | sym
  deriving DecidableEq

def expectedCategory : Tool → Str
  | .rx => str "Prescription"
  | .lab => str "LabReport"
  | .food => str "Food"
  | .sym => str "Symptoms"

/-- The `st.error` message each branch shows on a classification mismatch
(`doc_type` interpolated for `rx` and `lab`). -/
def mismatchMsg : Tool → Str → Str
  | .rx, d => str "❌ This appears to be a **" ++ d ++ str "**. Please use the correct section."
  | .lab, d => str "❌ This appears to be a **" ++ d ++ str "**. Please switch sections."
  | .food, _ => str "❌ This does not look like food. Please upload a food image."
  | .sym, _ => str "❌ Please describe symptoms here, not upload reports."

structure FlowResult where
  output : Str
  classifyCalls : Nat
  analysisCalls : Nat
  classifyContent : List Part
  deriving DecidableEq

/-- The classification request content for one button press: image for
rx/lab/food, the typed symptom text for sym. -/
def toolClassifyContent (t : Tool) (symptoms : Str) : List Part :=
  match t with
  | .sym => classify_content false (some symptoms)
  | _ => classify_content true none

/-- One button press of tool `t`: classify (one model call, content built
from the tool's modality — image for rx/lab/food, the typed text for sym),
block with the branch's message on mismatch, otherwise make the analysis
call (a second model call) and, for `rx` only, patch the result. -/
def tool_flow (t : Tool) (cOut aOut : Except Str Str) (symptoms : Str) : FlowResult :=
  if classify_input cOut ≠ expectedCategory t then
    { output := mismatchMsg t (classify_input cOut)
      classifyCalls := 1
      analysisCalls := 0
      classifyContent := toolClassifyContent t symptoms }
  else
    { output := if t = Tool.rx then patch_medicine_links (get_ai_response aOut)
                else get_ai_response aOut
      classifyCalls := 1
      analysisCalls := 1
      classifyContent := toolClassifyContent t symptoms }

/-! ### The spec's normalization algorithm (for comparison with
`classify_input`)

The specification (§4.2) prescribes lower-casing the raw response and
testing ordered keyword groups, first match winning.  `classify_input` in
the source does not do this; the definition below follows the spec's words
so the two can be compared. -/

/-- Count of positions of `s` at which `pat` occurs (as a prefix of the
corresponding tail). -/
def countOcc (pat : Str) : Str → Nat
  | [] => if pat = [] then 1 else 0
  | c :: rest => (if pat.isPrefixOf (c :: rest) then 1 else 0) + countOcc pat rest

/-- `s` contains `pat` as a substring. -/
def hasSub (pat s : Str) : Bool := decide (0 < countOcc pat s)

/-- Spec §4.2 normalization: lower-case the full raw response, then first
matching keyword group wins: prescription/medicine → Prescription;
lab/report → LabReport; food/meal/calorie → Food;
symptom/fever/pain/cough → Symptoms; otherwise Unknown. -/
def specNormalize (raw : Str) : Str :=
  let low := raw.map Char.toLower
  if hasSub (str "prescription") low || hasSub (str "medicine") low then str "Prescription"
  else if hasSub (str "lab") low || hasSub (str "report") low then str "LabReport"
  else if hasSub (str "food") low || hasSub (str "meal") low || hasSub (str "calorie") low then str "Food"
  else if hasSub (str "symptom") low || hasSub (str "fever") low || hasSub (str "pain") low || hasSub (str "cough") low then str "Symptoms"
  else str "Unknown"

/-! ## Lemmas about the marker matcher -/

theorem ciPrefStrip_some {p : Str} : ∀ {s r : Str}, ciPrefStrip p s = some r →
    ∃ q, s = q ++ r ∧ q.map Char.toLower = p.map Char.toLower := by
  induction p with
  | nil =>
    intro s r h
    simp only [ciPrefStrip, Option.some.injEq] at h
    exact ⟨[], by simp [h]⟩
  | cons p ps ih =>
    intro s r h
    match s with
    | [] => simp [ciPrefStrip] at h
    | c :: cs =>
      simp only [ciPrefStrip] at h
      by_cases hc : p.toLower = c.toLower
      · rw [if_pos hc] at h
        obtain ⟨q, hq, hm⟩ := ih h
        exact ⟨c :: q, by simp [hq], by simp [hm, hc]⟩
      · rw [if_neg hc] at h
        cases h

theorem ciPrefStrip_append {p : Str} : ∀ {q : Str},
    q.map Char.toLower = p.map Char.toLower → ∀ r : Str,
    ciPrefStrip p (q ++ r) = some r := by
  induction p with
  | nil =>
    intro q h r
    have : q = [] := by simpa using h
    simp [this, ciPrefStrip]
  | cons p ps ih =>
    intro q h r
    match q with
    | [] => simp at h
    | c :: q' =>
      simp only [List.map_cons, List.cons.injEq] at h
      simpa [ciPrefStrip, h.1] using ih h.2 r

theorem splitAtNL_some : ∀ {l n a : Str}, splitAtNL l = some (n, a) →
    l = n ++ '\n' :: a ∧ '\n' ∉ n := by
  intro l
  induction l with
  | nil => intro n a h; simp [splitAtNL] at h
  | cons c cs ih =>
    intro n a h
    simp only [splitAtNL] at h
    by_cases hc : c = '\n'
    · rw [if_pos hc] at h
      obtain ⟨h1, h2⟩ : ([] : Str) = n ∧ cs = a := by
        simpa [Prod.ext_iff] using h
      subst hc; subst h2
      simp [← h1]
    · rw [if_neg hc] at h
      cases hs : splitAtNL cs with
      | none => rw [hs] at h; cases h
      | some pr =>
        obtain ⟨l', r'⟩ := pr
        rw [hs] at h
        obtain ⟨h1, h2⟩ : c :: l' = n ∧ r' = a := by
          simpa [Prod.ext_iff] using h
        obtain ⟨hcs, hnotin⟩ := ih hs
        subst h1; subst h2; subst hcs
        exact ⟨by simp, by simp [hnotin, Ne.symm hc, hc]⟩

theorem splitAtNL_append : ∀ {n : Str}, '\n' ∉ n → ∀ a : Str,
    splitAtNL (n ++ '\n' :: a) = some (n, a) := by
  intro n
  induction n with
  | nil => intro _ a; simp [splitAtNL]
  | cons c cs ih =>
    intro h a
    simp only [List.mem_cons, not_or] at h
    have hc : ¬ c = '\n' := fun hh => h.1 hh.symm
    have hcs : '\n' ∉ cs := h.2
    simp [splitAtNL, hc, ih hcs]

theorem matchMarker_some {s n a : Str} (h : matchMarker s = some (n, a)) :
    ∃ lab, s = lab ++ n ++ '\n' :: a ∧
      lab.map Char.toLower = labelChars.map Char.toLower ∧ '\n' ∉ n := by
  unfold matchMarker at h
  cases hc : ciPrefStrip labelChars s with
  | none => rw [hc] at h; cases h
  | some rem =>
    rw [hc, Option.some_bind] at h
    obtain ⟨q, hq, hm⟩ := ciPrefStrip_some hc
    obtain ⟨hrem, hnotin⟩ := splitAtNL_some h
    exact ⟨q, by rw [hq, hrem, List.append_assoc], hm, hnotin⟩

theorem matchMarker_build {lab n : Str}
    (hlab : lab.map Char.toLower = labelChars.map Char.toLower)
    (hn : '\n' ∉ n) (a : Str) :
    matchMarker (lab ++ n ++ '\n' :: a) = some (n, a) := by
  unfold matchMarker
  rw [List.append_assoc, ciPrefStrip_append hlab, Option.some_bind,
    splitAtNL_append hn]

theorem labelChars_length : labelChars.length = 20 := by decide

theorem matchMarker_length {s n a : Str} (h : matchMarker s = some (n, a)) :
    a.length + 21 + n.length ≤ s.length := by
  obtain ⟨lab, hs, hm, _⟩ := matchMarker_some h
  have hl : lab.length = 20 := by
    have := congrArg List.length hm
    simpa [labelChars_length] using this
  subst hs
  simp [hl]
  omega

/-! ## Fuel irrelevance and step equations for the substitution scan -/

theorem patchGo_succ_match {c : Char} {rest nm a : Str}
    (hm : matchMarker (c :: rest) = some (nm, a)) (k : Nat) :
    patchGo (k + 1) (c :: rest) = mkLink nm ++ patchGo k a := by
  have e : patchGo (k + 1) (c :: rest) =
      match matchMarker (c :: rest) with
      | some (name, after) => mkLink name ++ patchGo k after
      | none => c :: patchGo k rest := rfl
  rw [e, hm]

theorem patchGo_succ_none {c : Char} {rest : Str}
    (hm : matchMarker (c :: rest) = none) (k : Nat) :
    patchGo (k + 1) (c :: rest) = c :: patchGo k rest := by
  have e : patchGo (k + 1) (c :: rest) =
      match matchMarker (c :: rest) with
      | some (name, after) => mkLink name ++ patchGo k after
      | none => c :: patchGo k rest := rfl
  rw [e, hm]

theorem patchGo_fuel : ∀ f : Nat, ∀ s : Str, s.length ≤ f →
    patchGo f s = patchGo s.length s := by
  intro f
  induction f using Nat.strong_induction_on with
  | _ f ih =>
    intro s hs
    match f, s with
    | f, [] => cases f <;> rfl
    | 0, c :: rest => simp at hs
    | g + 1, c :: rest =>
      have hrest : rest.length ≤ g := by simpa using hs
      rw [List.length_cons]
      cases hm : matchMarker (c :: rest) with
      | some pr =>
        obtain ⟨nm, a⟩ := pr
        have hlen := matchMarker_length hm
        have ha1 : a.length ≤ g := by simp at hlen; omega
        have ha2 : a.length ≤ rest.length := by simp at hlen; omega
        rw [patchGo_succ_match hm g, patchGo_succ_match hm rest.length]
        rw [ih g (by omega) a ha1, ih rest.length (by omega) a ha2]
      | none =>
        rw [patchGo_succ_none hm g, patchGo_succ_none hm rest.length]
        rw [ih g (by omega) rest hrest]

theorem patch_nil : patch_medicine_links [] = [] := rfl

theorem patch_match {s n a : Str} (h : matchMarker s = some (n, a)) :
    patch_medicine_links s = mkLink n ++ patch_medicine_links a := by
  match s with
  | [] => rw [show matchMarker [] = none from rfl] at h; cases h
  | c :: rest =>
    have hlen := matchMarker_length h
    unfold patch_medicine_links
    rw [List.length_cons, patchGo_succ_match h rest.length]
    rw [patchGo_fuel rest.length a (by simp at hlen; omega)]

theorem patch_nomatch {c : Char} {rest : Str} (h : matchMarker (c :: rest) = none) :
    patch_medicine_links (c :: rest) = c :: patch_medicine_links rest := by
  unfold patch_medicine_links
  rw [List.length_cons, patchGo_succ_none h rest.length]

theorem markerCountGo_succ_match {c : Char} {rest nm a : Str}
    (hm : matchMarker (c :: rest) = some (nm, a)) (k : Nat) :
    markerCountGo (k + 1) (c :: rest) = 1 + markerCountGo k a := by
  have e : markerCountGo (k + 1) (c :: rest) =
      match matchMarker (c :: rest) with
      | some (_, after) => 1 + markerCountGo k after
      | none => markerCountGo k rest := rfl
  rw [e, hm]

theorem markerCountGo_succ_none {c : Char} {rest : Str}
    (hm : matchMarker (c :: rest) = none) (k : Nat) :
    markerCountGo (k + 1) (c :: rest) = markerCountGo k rest := by
  have e : markerCountGo (k + 1) (c :: rest) =
      match matchMarker (c :: rest) with
      | some (_, after) => 1 + markerCountGo k after
      | none => markerCountGo k rest := rfl
  rw [e, hm]

theorem markerCountGo_fuel : ∀ f : Nat, ∀ s : Str, s.length ≤ f →
    markerCountGo f s = markerCountGo s.length s := by
  intro f
  induction f using Nat.strong_induction_on with
  | _ f ih =>
    intro s hs
    match f, s with
    | f, [] => cases f <;> rfl
    | 0, c :: rest => simp at hs
    | g + 1, c :: rest =>
      have hrest : rest.length ≤ g := by simpa using hs
      rw [List.length_cons]
      cases hm : matchMarker (c :: rest) with
      | some pr =>
        obtain ⟨nm, a⟩ := pr
        have hlen := matchMarker_length hm
        have ha1 : a.length ≤ g := by simp at hlen; omega
        have ha2 : a.length ≤ rest.length := by simp at hlen; omega
        rw [markerCountGo_succ_match hm g, markerCountGo_succ_match hm rest.length]
        rw [ih g (by omega) a ha1, ih rest.length (by omega) a ha2]
      | none =>
        rw [markerCountGo_succ_none hm g, markerCountGo_succ_none hm rest.length]
        rw [ih g (by omega) rest hrest]

theorem markerCount_nil : markerCount [] = 0 := rfl

theorem markerCount_match {s n a : Str} (h : matchMarker s = some (n, a)) :
    markerCount s = 1 + markerCount a := by
  match s with
  | [] => rw [show matchMarker [] = none from rfl] at h; cases h
  | c :: rest =>
    have hlen := matchMarker_length h
    unfold markerCount
    rw [List.length_cons, markerCountGo_succ_match h rest.length]
    rw [markerCountGo_fuel rest.length a (by simp at hlen; omega)]

theorem markerCount_nomatch {c : Char} {rest : Str} (h : matchMarker (c :: rest) = none) :
    markerCount (c :: rest) = markerCount rest := by
  unfold markerCount
  rw [List.length_cons, markerCountGo_succ_none h rest.length]

/-! ## The scan is the identity on marker-free text -/

theorem patch_zero_aux : ∀ f : Nat, ∀ s : Str, s.length ≤ f → markerCount s = 0 →
    patch_medicine_links s = s := by
  intro f
  induction f with
  | zero =>
    intro s hs _
    have : s = [] := List.eq_nil_of_length_eq_zero (by omega)
    simp [this, patch_nil]
  | succ g ih =>
    intro s hs h0
    match s with
    | [] => exact patch_nil
    | c :: rest =>
      cases hm : matchMarker (c :: rest) with
      | some pr =>
        obtain ⟨nm, a⟩ := pr
        rw [markerCount_match hm] at h0
        omega
      | none =>
        rw [patch_nomatch hm]
        rw [markerCount_nomatch hm] at h0
        rw [ih rest (by simpa using hs) h0]

theorem patch_of_markerCount_zero {s : Str} (h : markerCount s = 0) :
    patch_medicine_links s = s :=
  patch_zero_aux s.length s le_rfl h

/-! ## Decomposition of a text with exactly one marker occurrence -/

theorem patch_one_aux : ∀ f : Nat, ∀ s : Str, s.length ≤ f → markerCount s = 1 →
    ∃ p lab nm a, s = p ++ lab ++ nm ++ '\n' :: a ∧
      lab.map Char.toLower = labelChars.map Char.toLower ∧ '\n' ∉ nm ∧
      markerCount a = 0 ∧
      patch_medicine_links s = p ++ mkLink nm ++ a := by
  intro f
  induction f with
  | zero =>
    intro s hs h1
    have : s = [] := List.eq_nil_of_length_eq_zero (by omega)
    rw [this, markerCount_nil] at h1
    cases h1
  | succ g ih =>
    intro s hs h1
    match s with
    | [] => rw [markerCount_nil] at h1; cases h1
    | c :: rest =>
      cases hm : matchMarker (c :: rest) with
      | some pr =>
        obtain ⟨nm, a⟩ := pr
        have hmc := markerCount_match hm
        rw [h1] at hmc
        have ha0 : markerCount a = 0 := by omega
        obtain ⟨lab, hs', hmap, hnl⟩ := matchMarker_some hm
        refine ⟨[], lab, nm, a, by simpa using hs', hmap, hnl, ha0, ?_⟩
        rw [patch_match hm, patch_of_markerCount_zero ha0]
        simp
      | none =>
        rw [markerCount_nomatch hm] at h1
        obtain ⟨p, lab, nm, a, hs', hmap, hnl, ha0, hp⟩ :=
          ih rest (by simpa using hs) h1
        refine ⟨c :: p, lab, nm, a, by simp [hs'], hmap, hnl, ha0, ?_⟩
        rw [patch_nomatch hm, hp]
        simp

theorem patch_of_markerCount_one {s : Str} (h : markerCount s = 1) :
    ∃ p lab nm a, s = p ++ lab ++ nm ++ '\n' :: a ∧
      lab.map Char.toLower = labelChars.map Char.toLower ∧ '\n' ∉ nm ∧
      markerCount a = 0 ∧
      patch_medicine_links s = p ++ mkLink nm ++ a :=
  patch_one_aux s.length s le_rfl h

/-! ## Counting substring occurrences -/

theorem countOcc_nil {pat : Str} (h : pat ≠ []) : countOcc pat [] = 0 := by
  simp [countOcc, h]

theorem countOcc_eq_zero_iff {pat : Str} (hne : pat ≠ []) :
    ∀ {s : Str}, countOcc pat s = 0 ↔ ¬ pat <:+: s := by
  intro s
  induction s with
  | nil =>
    simp [countOcc_nil hne, List.infix_nil, hne]
  | cons c rest ih =>
    simp only [countOcc]
    constructor
    · intro h hin
      have h1 : ¬ pat.isPrefixOf (c :: rest) = true := by
        intro hp; rw [if_pos hp] at h; omega
      have h2 : countOcc pat rest = 0 := by
        by_cases hp : pat.isPrefixOf (c :: rest) = true
        · exact absurd hp h1
        · rw [if_neg hp] at h; simpa using h
      rcases List.infix_cons_iff.mp hin with hpre | hinf
      · exact h1 (( List.isPrefixOf_iff_prefix).mpr hpre)
      · exact (ih.mp h2) hinf
    · intro hnin
      have h1 : ¬ pat.isPrefixOf (c :: rest) = true := by
        intro hp
        exact hnin ( List.infix_cons_iff.mpr
          (Or.inl (( List.isPrefixOf_iff_prefix).mp hp)))
      have h2 : ¬ pat <:+: rest := fun hx =>
        hnin ( List.infix_cons_iff.mpr (Or.inr hx))
      rw [if_neg h1, ih.mpr h2]

theorem countOcc_zero_mono {pat s t : Str} (hne : pat ≠ [])
    (h : countOcc pat t = 0) (hsub : s <:+: t) : countOcc pat s = 0 :=
  (countOcc_eq_zero_iff hne).mpr
    fun hx => (countOcc_eq_zero_iff hne).mp h (hx.trans hsub)

theorem countOcc_zero_of_not_mem {pat s : Str} {c : Char}
    (hc : c ∈ pat) (hs : c ∉ s) : countOcc pat s = 0 := by
  have hne : pat ≠ [] := by rintro rfl; cases hc
  exact (countOcc_eq_zero_iff hne).mpr fun hx => hs (hx.subset hc)

theorem countOcc_short {pat s : Str} (h : s.length < pat.length) :
    countOcc pat s = 0 := by
  induction s with
  | nil =>
    have : pat ≠ [] := by rintro rfl; simp at h
    exact countOcc_nil this
  | cons c rest ih =>
    simp only [countOcc]
    have h1 : ¬ pat.isPrefixOf (c :: rest) = true := by
      intro hp
      have := (( List.isPrefixOf_iff_prefix).mp hp).length_le
      simp at this h; omega
    rw [if_neg h1, ih (by simp at h ⊢; omega)]

theorem countOcc_self {pat : Str} (hne : pat ≠ []) : countOcc pat pat = 1 := by
  match pat, hne with
  | c :: t, _ =>
    simp only [countOcc]
    rw [if_pos (( List.isPrefixOf_iff_prefix).mpr ( List.prefix_refl _))]
    rw [countOcc_short (by simp)]

theorem appendPrefixCases {l a b : Str} (h : l <+: a ++ b) :
    l <+: a ∨ (a <+: l ∧ l.drop a.length <+: b) := by
  by_cases hl : l.length ≤ a.length
  · left
    have he := List.prefix_iff_eq_take.mp h
    rw [List.take_append_of_le_length hl] at he
    rw [he]
    exact List.take_prefix _ _
  · right
    obtain ⟨t, ht⟩ := h
    have ha : a <+: l := by
      have h1 : l.take a.length = (a ++ b).take a.length := by
        rw [← ht, List.take_append_of_le_length (by omega)]
      rw [List.take_append_of_le_length le_rfl, List.take_length] at h1
      exact h1 ▸ List.take_prefix _ _
    refine ⟨ha, ⟨t, ?_⟩⟩
    have h2 : (l ++ t).drop a.length = (a ++ b).drop a.length := by rw [ht]
    rw [List.drop_append_of_le_length (by omega), List.drop_left] at h2
    exact h2

/-- Splitting the occurrence count across an append, when no occurrence can
span the boundary. -/
theorem countOcc_append {pat : Str} (hne : pat ≠ []) :
    ∀ (a b : Str),
      (∀ k, 0 < k → k < pat.length → ¬ (pat.take k <:+ a ∧ pat.drop k <+: b)) →
      countOcc pat (a ++ b) = countOcc pat a + countOcc pat b := by
  intro a
  induction a with
  | nil =>
    intro b _
    simp [countOcc_nil hne]
  | cons c a' ih =>
    intro b hspan
    have hspan' : ∀ k, 0 < k → k < pat.length →
        ¬ (pat.take k <:+ a' ∧ pat.drop k <+: b) := by
      intro k hk1 hk2 ⟨hsuf, hpre⟩
      exact hspan k hk1 hk2 ⟨hsuf.trans (List.suffix_cons c a'), hpre⟩
    have hhead : pat.isPrefixOf (c :: a' ++ b) = pat.isPrefixOf (c :: a') := by
      by_cases hp : pat <+: (c :: a')
      · rw [( List.isPrefixOf_iff_prefix).mpr hp,
          ( List.isPrefixOf_iff_prefix).mpr (hp.trans ( List.prefix_append _ b))]
      · have hp2 : ¬ pat <+: (c :: a') ++ b := by
          intro hx
          rcases appendPrefixCases hx with h1 | ⟨h1, h2⟩
          · exact hp h1
          · by_cases hlen : pat.length ≤ (c :: a').length
            · exact hp ( List.IsPrefix.eq_of_length_le h1 hlen ▸ List.prefix_refl _)
            · refine hspan (c :: a').length (by simp) (by omega) ⟨?_, h2⟩
              rw [← List.prefix_iff_eq_take.mp h1]
        rw [Bool.eq_false_iff.mpr fun hx => hp (( List.isPrefixOf_iff_prefix).mp hx),
          Bool.eq_false_iff.mpr fun hx => hp2 (( List.isPrefixOf_iff_prefix).mp hx)]
    calc countOcc pat (c :: a' ++ b)
        = (if pat.isPrefixOf (c :: a' ++ b) then 1 else 0) + countOcc pat (a' ++ b) := rfl
      _ = (if pat.isPrefixOf (c :: a') then 1 else 0) + (countOcc pat a' + countOcc pat b) := by
          rw [hhead, ih b hspan']
      _ = countOcc pat (c :: a') + countOcc pat b := by
          simp only [countOcc]; omega

/-! Boundary "no-span" helpers: a spanning occurrence is refuted by looking
at one character. -/

theorem head_of_take {pat : Str} {c0 : Char} (h0 : pat.head? = some c0)
    {k : Nat} (hk : 0 < k) : (pat.take k).head? = some c0 := by
  match pat, k, hk with
  | c :: t, k + 1, _ => simpa using h0

theorem nospan_head_right {pat b : Str} {d : Char} (hb : b.head? = some d)
    (hd : d ∉ pat.drop 1) :
    ∀ k, 0 < k → k < pat.length → ¬ pat.drop k <+: b := by
  intro k hk1 hk2 hpre
  have hne : pat.drop k ≠ [] := by
    intro hx
    have hl := congrArg List.length hx
    rw [List.length_drop] at hl
    simp only [List.length_nil] at hl
    omega
  match hd2 : pat.drop k, hne with
  | x :: l', _ =>
    rw [hd2] at hpre
    obtain ⟨t, ht⟩ := hpre
    have hx : x = d := by
      have : b.head? = some x := by rw [← ht]; rfl
      rw [hb] at this; exact (Option.some.injEq _ _ ▸ this).symm
    have hmem : x ∈ pat.drop k := by rw [hd2]; simp
    have hsub : pat.drop k ⊆ pat.drop 1 := by
      have : List.drop (k - 1) (List.drop 1 pat) = List.drop k pat := by
        rw [List.drop_drop]; congr 1; omega
      rw [← this]
      exact List.drop_subset _ _
    exact hd (hx ▸ hsub hmem)

theorem nospan_last_left {pat a : Str} {e : Char} (ha : a.reverse.head? = some e)
    (he : e ∉ pat) :
    ∀ k, 0 < k → k < pat.length → ¬ pat.take k <:+ a := by
  intro k hk1 hk2 hsuf
  have hne : (pat.take k).reverse ≠ [] := by
    intro hx
    have hl := congrArg List.length hx
    rw [List.length_reverse, List.length_take] at hl
    simp only [List.length_nil] at hl
    omega
  have hpre : (pat.take k).reverse <+: a.reverse :=
    List.reverse_prefix.mpr hsuf
  match hd2 : (pat.take k).reverse, hne with
  | x :: l', _ =>
    rw [hd2] at hpre
    obtain ⟨t, ht⟩ := hpre
    have hx : x = e := by
      have : a.reverse.head? = some x := by rw [← ht]; rfl
      rw [ha] at this; exact (Option.some.injEq _ _ ▸ this).symm
    have hmem : x ∈ pat.take k := by
      rw [← List.mem_reverse, hd2]; simp
    exact he (hx ▸ List.take_subset _ _ hmem)

theorem nospan_into_self {pat : Str} {c0 : Char} (h0 : pat.head? = some c0)
    (h1 : c0 ∉ pat.drop 1) :
    ∀ k, 0 < k → k < pat.length → ¬ pat.take k <:+ pat := by
  intro k hk1 hk2 hsuf
  obtain ⟨t, ht⟩ := hsuf
  have htne : t ≠ [] := by
    intro hx
    rw [hx] at ht
    have := congrArg List.length ht
    simp at this
    omega
  match hd2 : t, htne with
  | x :: t', _ =>
    have hsub : pat.take k <:+ pat.drop 1 := by
      refine ⟨t', ?_⟩
      have : (x :: (t' ++ pat.take k)).drop 1 = pat.drop 1 := by
        rw [show x :: (t' ++ pat.take k) = x :: t' ++ pat.take k by simp, ht]
      simpa using this
    have hmem : c0 ∈ pat.take k := by
      have hh := head_of_take h0 hk1
      match hp : pat.take k, hh with
      | y :: l', hh => simp at hh; simp [hh]
    exact h1 (hsub.subset hmem)

/-! ## Facts about the generated link text -/

theorem linkPat_ne_nil : linkPat ≠ [] := by decide

theorem linkPat_head : linkPat.head? = some ']' := by decide

theorem bracket_not_mem_linkPat_tail : ']' ∉ linkPat.drop 1 := by decide

theorem nl_not_mem_linkPat : '\n' ∉ linkPat := by decide

theorem star_not_mem_linkPat_tail : '*' ∉ linkPat.drop 1 := by decide

theorem lbracket_not_mem_linkPat : '[' ∉ linkPat := by decide

theorem bracket_mem_linkPat : ']' ∈ linkPat := by decide

theorem char_toNat_lt (c : Char) : c.toNat < 1114112 := by
  have h : Nat.isValidChar c.toNat := c.valid
  rcases h with h | ⟨h1, h2⟩ <;> omega

theorem utf8Bytes_lt (c : Char) : ∀ b ∈ utf8Bytes c, b < 256 := by
  have hv : c.toNat < 1114112 := char_toNat_lt c
  intro b hb
  unfold utf8Bytes at hb
  by_cases h1 : c.toNat < 0x80
  · simp [h1] at hb; omega
  · by_cases h2 : c.toNat < 0x800
    · simp [h1, h2] at hb
      rcases hb with hb | hb <;> omega
    · by_cases h3 : c.toNat < 0x10000
      · simp [h1, h2, h3] at hb
        rcases hb with hb | hb | hb <;> omega
      · simp [h1, h2, h3] at hb
        rcases hb with hb | hb | hb | hb <;> omega

theorem hexDigitChar_ne_bracket : ∀ n : Nat, n < 16 → hexDigitChar n ≠ ']' := by
  decide

theorem bracket_not_mem_pctEnc : ∀ bs : List Nat, (∀ b ∈ bs, b < 256) →
    ']' ∉ pctEnc bs := by
  intro bs
  induction bs with
  | nil => simp [pctEnc]
  | cons b bs ih =>
    intro hlt
    simp only [pctEnc, pctEncByte, List.cons_append, List.nil_append,
      List.mem_cons, List.mem_append, not_or]
    have hb : b < 256 := hlt b (by simp)
    refine ⟨by decide, ?_, ?_, ?_⟩
    · exact fun hx => hexDigitChar_ne_bracket (b / 16) (by omega) hx.symm
    · exact fun hx => hexDigitChar_ne_bracket (b % 16) (by omega) hx.symm
    · exact fun hx => ih (fun x hxm => hlt x (by simp [hxm])) hx

theorem bracket_not_mem_quote_plus : ∀ x : Str, ']' ∉ quote_plus x := by
  intro x
  induction x with
  | nil => simp [quote_plus]
  | cons c cs ih =>
    simp only [quote_plus, List.mem_append, not_or]
    refine ⟨?_, ih⟩
    unfold encodeChar
    by_cases h1 : isSafeChar c
    · simp only [if_pos h1, List.mem_singleton]
      intro hx
      rw [← hx] at h1
      exact absurd h1 (by decide)
    · by_cases h2 : c = ' '
      · rw [if_neg h1, if_pos h2]
        decide
      · rw [if_neg h1, if_neg h2]
        exact bracket_not_mem_pctEnc _ (utf8Bytes_lt c)

theorem pyStrip_isInfix (s : Str) : pyStrip s <:+: s := by
  have h1 : s.dropWhile isPySpace <:+ s := List.dropWhile_suffix _
  have h2 : (s.dropWhile isPySpace).reverse.dropWhile isPySpace <:+
      (s.dropWhile isPySpace).reverse := List.dropWhile_suffix _
  rw [show (s.dropWhile isPySpace).reverse.dropWhile isPySpace =
      ((s.dropWhile isPySpace).reverse.dropWhile isPySpace).reverse.reverse from
      (List.reverse_reverse _).symm] at h2
  have h3 := List.reverse_suffix.mp h2
  exact h3.isInfix.trans h1.isInfix

theorem mkLink_eq (n : Str) : mkLink n =
    str "**Brand Medicine:** [" ++ (pyStrip n ++ (linkPat ++
      (quote_plus (pyStrip n) ++ str ") 🔗\n"))) := by
  unfold mkLink
  simp [List.append_assoc]

theorem mkLink_append_head (n a : Str) : (mkLink n ++ a).head? = some '*' := by
  rw [mkLink_eq]
  rfl

theorem mkLink_last (n : Str) : (mkLink n).reverse.head? = some '\n' := by
  rw [mkLink_eq]
  rw [show str "**Brand Medicine:** [" ++ (pyStrip n ++ (linkPat ++
      (quote_plus (pyStrip n) ++ str ") 🔗\n"))) =
      (str "**Brand Medicine:** [" ++ pyStrip n ++ linkPat ++
        quote_plus (pyStrip n)) ++ str ") 🔗\n" by simp [List.append_assoc]]
  rw [List.reverse_append]
  rfl

/-- The replacement for one marker contains the generated-link pattern
exactly once, provided the stripped name itself does not contain it. -/
theorem countOcc_mkLink {n : Str} (hn : countOcc linkPat (pyStrip n) = 0) :
    countOcc linkPat (mkLink n) = 1 := by
  have hne := linkPat_ne_nil
  rw [mkLink_eq]
  rw [countOcc_append hne _ _ (fun k hk1 hk2 h => by
    exact nospan_last_left (by decide) lbracket_not_mem_linkPat k hk1 hk2 h.1)]
  rw [countOcc_append hne _ _ (fun k hk1 hk2 h => by
    refine nospan_head_right ?_ bracket_not_mem_linkPat_tail k hk1 hk2 h.2
    rw [show linkPat ++ (quote_plus (pyStrip n) ++ str ") 🔗\n") =
      ']' :: (linkPat.drop 1 ++ (quote_plus (pyStrip n) ++ str ") 🔗\n")) from rfl]
    rfl)]
  rw [countOcc_append hne _ _ (fun k hk1 hk2 h => by
    exact nospan_into_self linkPat_head bracket_not_mem_linkPat_tail k hk1 hk2 h.1)]
  rw [countOcc_zero_of_not_mem bracket_mem_linkPat
    (show ']' ∉ str "**Brand Medicine:** [" by decide)]
  rw [hn, countOcc_self hne]
  rw [countOcc_zero_of_not_mem bracket_mem_linkPat (by
    simp only [List.mem_append, not_or]
    exact ⟨bracket_not_mem_quote_plus _, by decide⟩)]

/-- Patching a text that contains exactly one marker and no occurrence of
the generated-link pattern yields a text containing that pattern exactly
once. -/
theorem countOcc_patch_one {s : Str} (h1 : markerCount s = 1)
    (h0 : countOcc linkPat s = 0) :
    countOcc linkPat (patch_medicine_links s) = 1 := by
  have hne := linkPat_ne_nil
  obtain ⟨p, lab, nm, a, hs, hmap, hnl, ha0, hp⟩ := patch_of_markerCount_one h1
  have hpfx : p <+: s := ⟨lab ++ nm ++ '\n' :: a, by rw [hs]; simp [List.append_assoc]⟩
  have hasuf : a <:+ s := ⟨p ++ lab ++ nm ++ ['\n'], by
    rw [hs]; simp [List.append_assoc]⟩
  have hnm : nm <:+: s := ⟨p ++ lab, '\n' :: a, by rw [hs]⟩
  have hstrip : pyStrip nm <:+: s := (pyStrip_isInfix nm).trans hnm
  have hzp : countOcc linkPat p = 0 := countOcc_zero_mono hne h0 hpfx.isInfix
  have hza : countOcc linkPat a = 0 := countOcc_zero_mono hne h0 hasuf.isInfix
  have hzn : countOcc linkPat (pyStrip nm) = 0 := countOcc_zero_mono hne h0 hstrip
  rw [hp, List.append_assoc]
  rw [countOcc_append hne _ _ (fun k hk1 hk2 h => by
    exact nospan_head_right (mkLink_append_head nm a)
      star_not_mem_linkPat_tail k hk1 hk2 h.2)]
  rw [countOcc_append hne _ _ (fun k hk1 hk2 h => by
    exact nospan_last_left (mkLink_last nm) nl_not_mem_linkPat k hk1 hk2 h.1)]
  rw [hzp, hza, countOcc_mkLink hzn]

/-! ## Percent-decoding

The spec's testable property speaks of the link's query parameter
"percent-decoded".  The decoder below models `urllib.parse.unquote_plus`
(`+` becomes a space, runs of `%XX` escapes are decoded as UTF-8 bytes);
it is the spec-side inverse used to state that property, not code of the
repository. -/

def hexVal (c : Char) : Option Nat :=
  if '0' ≤ c ∧ c ≤ '9' then some (c.toNat - 48)
  else if 'A' ≤ c ∧ c ≤ 'F' then some (c.toNat - 55)
  else if 'a' ≤ c ∧ c ≤ 'f' then some (c.toNat - 87)
  else none

/-- Collect the maximal leading run of `%XX` escapes, as byte values plus
the remaining text. -/
def collectBytes : Str → List Nat × Str
  | [] => ([], [])
  | c :: rest =>
    if c = '%' then
      match rest with
      | h1 :: h2 :: rest' =>
        match hexVal h1, hexVal h2 with
        | some a, some b => ((16 * a + b) :: (collectBytes rest').1, (collectBytes rest').2)
        | _, _ => ([], c :: rest)
      | _ => ([], c :: rest)
    else ([], c :: rest)

def replChar : Char := '�'

def isCont (b : Nat) : Bool := 0x80 ≤ b && b < 0xC0

/-- UTF-8 decoding of a byte run, fuelled by the input length (for the
well-formed encodings produced by `utf8Bytes`; malformed input yields
replacement characters). -/
def utf8DecodeGo : Nat → List Nat → List Char
  | _, [] => []
  | 0, _ => []
  | fuel + 1, b :: rest =>
    if b < 0x80 then Char.ofNat b :: utf8DecodeGo fuel rest
    else if b < 0xC0 then replChar :: utf8DecodeGo fuel rest
    else if b < 0xE0 then
      match rest with
      | b2 :: r2 =>
        if isCont b2 then
          Char.ofNat ((b - 0xC0) * 64 + (b2 - 0x80)) :: utf8DecodeGo fuel r2
        else replChar :: utf8DecodeGo fuel rest
      | [] => [replChar]
    else if b < 0xF0 then
      match rest with
      | b2 :: b3 :: r3 =>
        if isCont b2 && isCont b3 then
          Char.ofNat ((b - 0xE0) * 4096 + (b2 - 0x80) * 64 + (b3 - 0x80)) ::
            utf8DecodeGo fuel r3
        else replChar :: utf8DecodeGo fuel rest
      | _ => replChar :: utf8DecodeGo fuel rest
    else if b < 0xF8 then
      match rest with
      | b2 :: b3 :: b4 :: r4 =>
        if isCont b2 && isCont b3 && isCont b4 then
          Char.ofNat ((b - 0xF0) * 262144 + (b2 - 0x80) * 4096 +
            (b3 - 0x80) * 64 + (b4 - 0x80)) :: utf8DecodeGo fuel r4
        else replChar :: utf8DecodeGo fuel rest
      | _ => replChar :: utf8DecodeGo fuel rest
    else replChar :: utf8DecodeGo fuel rest

def utf8Decode (bs : List Nat) : List Char := utf8DecodeGo bs.length bs

/-- `urllib.parse.unquote_plus`, fuelled by the input length. -/
def unquoteGo : Nat → Str → Str
  | _, [] => []
  | 0, s => s
  | fuel + 1, c :: rest =>
    if c = '+' then ' ' :: unquoteGo fuel rest
    else if c = '%' then
      if (collectBytes (c :: rest)).1 = [] then '%' :: unquoteGo fuel rest
      else utf8Decode (collectBytes (c :: rest)).1 ++
        unquoteGo fuel (collectBytes (c :: rest)).2
    else c :: unquoteGo fuel rest

def unquote_plus (s : Str) : Str := unquoteGo s.length s

/-! ## Equations and lemmas for the decoder -/

theorem collectBytes_not_pct {c : Char} (h : c ≠ '%') (rest : Str) :
    collectBytes (c :: rest) = ([], c :: rest) := by
  unfold collectBytes
  rw [if_neg h]

theorem collectBytes_pct_some {h1 h2 : Char} {a b : Nat} (rest : Str)
    (ha : hexVal h1 = some a) (hb : hexVal h2 = some b) :
    collectBytes ('%' :: h1 :: h2 :: rest) =
      ((16 * a + b) :: (collectBytes rest).1, (collectBytes rest).2) := by
  have e : collectBytes ('%' :: h1 :: h2 :: rest) =
      match hexVal h1, hexVal h2 with
      | some a, some b => ((16 * a + b) :: (collectBytes rest).1, (collectBytes rest).2)
      | _, _ => ([], '%' :: h1 :: h2 :: rest) := rfl
  rw [e, ha, hb]

theorem collectBytes_length_aux : ∀ f : Nat, ∀ s : Str, s.length ≤ f →
    (collectBytes s).2.length + 3 * (collectBytes s).1.length = s.length := by
  intro f
  induction f with
  | zero =>
    intro s hs
    have : s = [] := List.eq_nil_of_length_eq_zero (by omega)
    subst this
    rfl
  | succ g ih =>
    intro s hs
    match s with
    | [] => rfl
    | c :: rest =>
      by_cases hc : c = '%'
      · subst hc
        match rest with
        | [] => rfl
        | [h1] => rfl
        | h1 :: h2 :: rest' =>
          have e : collectBytes ('%' :: h1 :: h2 :: rest') =
              match hexVal h1, hexVal h2 with
              | some a, some b =>
                ((16 * a + b) :: (collectBytes rest').1, (collectBytes rest').2)
              | _, _ => ([], '%' :: h1 :: h2 :: rest') := rfl
          have hr : rest'.length ≤ g := by simp at hs; omega
          cases hha : hexVal h1 with
          | none => rw [e, hha]; simp
          | some a =>
            cases hhb : hexVal h2 with
            | none => rw [e, hha, hhb]; simp
            | some b =>
              rw [e, hha, hhb]
              have := ih rest' hr
              simp only [List.length_cons]
              simp at this ⊢
              omega
      · rw [collectBytes_not_pct hc]
        simp

theorem collectBytes_length (s : Str) :
    (collectBytes s).2.length + 3 * (collectBytes s).1.length = s.length :=
  collectBytes_length_aux s.length s le_rfl

theorem unquoteGo_succ (c : Char) (rest : Str) (k : Nat) :
    unquoteGo (k + 1) (c :: rest) =
      if c = '+' then ' ' :: unquoteGo k rest
      else if c = '%' then
        if (collectBytes (c :: rest)).1 = [] then '%' :: unquoteGo k rest
        else utf8Decode (collectBytes (c :: rest)).1 ++
          unquoteGo k (collectBytes (c :: rest)).2
      else c :: unquoteGo k rest := rfl

theorem unquoteGo_fuel : ∀ f : Nat, ∀ s : Str, s.length ≤ f →
    unquoteGo f s = unquoteGo s.length s := by
  intro f
  induction f using Nat.strong_induction_on with
  | _ f ih =>
    intro s hs
    match f, s with
    | f, [] => cases f <;> rfl
    | 0, c :: rest => simp at hs
    | g + 1, c :: rest =>
      have hrest : rest.length ≤ g := by simpa using hs
      rw [List.length_cons, unquoteGo_succ, unquoteGo_succ]
      split_ifs with h1 h2 h3
      · rw [ih g (by omega) rest hrest]
      · rw [ih g (by omega) rest hrest]
      · have hlen := collectBytes_length (c :: rest)
        have hbs : (collectBytes (c :: rest)).1.length ≥ 1 := by
          match hb : (collectBytes (c :: rest)).1, h3 with
          | b :: bs, _ => simp
        have hr2 : (collectBytes (c :: rest)).2.length ≤ rest.length - 2 := by
          simp at hlen; omega
        rw [ih g (by omega) _ (show (collectBytes (c :: rest)).2.length ≤ g by omega)]
        rw [ih rest.length (by omega) _
          (show (collectBytes (c :: rest)).2.length ≤ rest.length by omega)]
      · rw [ih g (by omega) rest hrest]

theorem uq_plus (rest : Str) :
    unquote_plus ('+' :: rest) = ' ' :: unquote_plus rest := by
  unfold unquote_plus
  rw [List.length_cons, unquoteGo_succ, if_pos rfl]

theorem uq_lit {c : Char} (h1 : c ≠ '+') (h2 : c ≠ '%') (rest : Str) :
    unquote_plus (c :: rest) = c :: unquote_plus rest := by
  unfold unquote_plus
  rw [List.length_cons, unquoteGo_succ, if_neg h1, if_neg h2]

theorem uq_pct {rest : Str} (hne : (collectBytes ('%' :: rest)).1 ≠ []) :
    unquote_plus ('%' :: rest) =
      utf8Decode (collectBytes ('%' :: rest)).1 ++
        unquote_plus (collectBytes ('%' :: rest)).2 := by
  unfold unquote_plus
  rw [List.length_cons, unquoteGo_succ, if_neg (by decide : ¬('%' : Char) = '+'),
    if_pos rfl, if_neg hne]
  have hlen := collectBytes_length ('%' :: rest)
  have hbs : (collectBytes ('%' :: rest)).1.length ≥ 1 := by
    match hb : (collectBytes ('%' :: rest)).1, hne with
    | b :: bs, _ => simp
  rw [unquoteGo_fuel rest.length _ (by simp at hlen; omega)]

theorem utf8DecodeGo_nil (f : Nat) : utf8DecodeGo f [] = [] := by
  cases f <;> rfl

theorem utf8DecodeGo_fuel : ∀ f : Nat, ∀ s : List Nat, s.length ≤ f →
    utf8DecodeGo f s = utf8DecodeGo s.length s := by
  intro f
  induction f using Nat.strong_induction_on with
  | _ f ih =>
    intro s hs
    match f, s with
    | f, [] => rw [utf8DecodeGo_nil, utf8DecodeGo_nil]
    | 0, b :: rest => simp at hs
    | g + 1, b :: rest =>
      have hrest : rest.length ≤ g := by simpa using hs
      have ihg : utf8DecodeGo g rest = utf8DecodeGo rest.length rest :=
        ih g (by omega) rest hrest
      rw [List.length_cons]
      simp only [utf8DecodeGo]
      split_ifs with h1 h2 h3 h4 h5
      · rw [ihg]
      · rw [ihg]
      · cases rest with
        | nil => simp [utf8DecodeGo_nil]
        | cons b2 r2 =>
          dsimp only
          have h2len : r2.length + 1 ≤ g := by simpa using hrest
          by_cases hc : isCont b2
          · rw [if_pos hc, if_pos hc]
            rw [ih g (by omega) r2 (by omega)]
            rw [ih (b2 :: r2).length (by simp; omega) r2 (by simp)]
          · rw [if_neg hc, if_neg hc]
            rw [ihg]
      · cases rest with
        | nil => simp [utf8DecodeGo_nil]
        | cons b2 r2 =>
          cases r2 with
          | nil => dsimp only; rw [ihg]
          | cons b3 r3 =>
            dsimp only
            have h3len : r3.length + 1 + 1 ≤ g := by simpa using hrest
            by_cases hc : isCont b2 && isCont b3
            · rw [if_pos hc, if_pos hc]
              rw [ih g (by omega) r3 (by omega)]
              rw [ih (b2 :: b3 :: r3).length (by simp; omega) r3 (by simp; omega)]
            · rw [if_neg hc, if_neg hc]
              rw [ihg]
      · cases rest with
        | nil => simp [utf8DecodeGo_nil]
        | cons b2 r2 =>
          cases r2 with
          | nil => dsimp only; rw [ihg]
          | cons b3 r3 =>
            cases r3 with
            | nil => dsimp only; rw [ihg]
            | cons b4 r4 =>
              dsimp only
              have h4len : r4.length + 1 + 1 + 1 ≤ g := by simpa using hrest
              by_cases hc : isCont b2 && isCont b3 && isCont b4
              · rw [if_pos hc, if_pos hc]
                rw [ih g (by omega) r4 (by omega)]
                rw [ih (b2 :: b3 :: b4 :: r4).length (by simp; omega) r4 (by simp; omega)]
              · rw [if_neg hc, if_neg hc]
                rw [ihg]
      · rw [ihg]

theorem utf8Bytes_ne_nil (c : Char) : utf8Bytes c ≠ [] := by
  simp only [utf8Bytes]
  split_ifs <;> simp

/-- Decoding the UTF-8 bytes of one character at the head of a byte run. -/
theorem utf8Decode_encode_cons (c : Char) (t : List Nat) :
    utf8Decode (utf8Bytes c ++ t) = c :: utf8Decode t := by
  have hv : c.toNat < 1114112 := char_toNat_lt c
  unfold utf8Decode
  by_cases h1 : c.toNat < 0x80
  · rw [show utf8Bytes c = [c.toNat] by unfold utf8Bytes; rw [if_pos h1]]
    simp only [List.cons_append, List.nil_append, List.length_cons]
    simp only [utf8DecodeGo]
    rw [if_pos h1, Char.ofNat_toNat, utf8DecodeGo_fuel t.length t le_rfl]
  · by_cases h2 : c.toNat < 0x800
    · rw [show utf8Bytes c = [0xC0 + c.toNat / 64, 0x80 + c.toNat % 64] by
        unfold utf8Bytes; rw [if_neg h1, if_pos h2]]
      simp only [List.cons_append, List.nil_append, List.length_cons]
      simp only [utf8DecodeGo]
      rw [if_neg (by omega), if_neg (by omega), if_pos (by omega)]
      rw [if_pos (by simp [isCont]; omega)]
      rw [show (0xC0 + c.toNat / 64 - 0xC0) * 64 + (0x80 + c.toNat % 64 - 0x80)
          = c.toNat by omega]
      rw [Char.ofNat_toNat]
      rw [utf8DecodeGo_fuel (t.length + 1) t (by omega)]
    · by_cases h3 : c.toNat < 0x10000
      · rw [show utf8Bytes c = [0xE0 + c.toNat / 4096, 0x80 + c.toNat / 64 % 64,
            0x80 + c.toNat % 64] by
          unfold utf8Bytes; rw [if_neg h1, if_neg h2, if_pos h3]]
        simp only [List.cons_append, List.nil_append, List.length_cons]
        simp only [utf8DecodeGo]
        rw [if_neg (by omega), if_neg (by omega), if_neg (by omega), if_pos (by omega)]
        rw [if_pos (by simp [isCont]; omega)]
        rw [show (0xE0 + c.toNat / 4096 - 0xE0) * 4096 +
            (0x80 + c.toNat / 64 % 64 - 0x80) * 64 + (0x80 + c.toNat % 64 - 0x80)
            = c.toNat by omega]
        rw [Char.ofNat_toNat]
        rw [utf8DecodeGo_fuel (t.length + 1 + 1) t (by omega)]
      · rw [show utf8Bytes c = [0xF0 + c.toNat / 262144, 0x80 + c.toNat / 4096 % 64,
            0x80 + c.toNat / 64 % 64, 0x80 + c.toNat % 64] by
          unfold utf8Bytes; rw [if_neg h1, if_neg h2, if_neg h3]]
        simp only [List.cons_append, List.nil_append, List.length_cons]
        simp only [utf8DecodeGo]
        rw [if_neg (by omega), if_neg (by omega), if_neg (by omega),
          if_neg (by omega), if_pos (by omega)]
        rw [if_pos (by simp [isCont]; omega)]
        rw [show (0xF0 + c.toNat / 262144 - 0xF0) * 262144 +
            (0x80 + c.toNat / 4096 % 64 - 0x80) * 4096 +
            (0x80 + c.toNat / 64 % 64 - 0x80) * 64 + (0x80 + c.toNat % 64 - 0x80)
            = c.toNat by omega]
        rw [Char.ofNat_toNat]
        rw [utf8DecodeGo_fuel (t.length + 1 + 1 + 1) t (by omega)]

/-! ## Round-trip: decoding inverts `quote_plus` -/

theorem hexVal_hexDigitChar : ∀ n : Nat, n < 16 → hexVal (hexDigitChar n) = some n := by
  decide

theorem collectBytes_pctEnc : ∀ bs : List Nat, (∀ b ∈ bs, b < 256) → ∀ t : Str,
    collectBytes (pctEnc bs ++ t) = (bs ++ (collectBytes t).1, (collectBytes t).2) := by
  intro bs
  induction bs with
  | nil =>
    intro _ t
    simp [pctEnc]
  | cons b bs ih =>
    intro hlt t
    have hb : b < 256 := hlt b (by simp)
    rw [show pctEnc (b :: bs) ++ t =
      '%' :: hexDigitChar (b / 16) :: hexDigitChar (b % 16) :: (pctEnc bs ++ t) by
      simp [pctEnc, pctEncByte]]
    rw [collectBytes_pct_some _ (hexVal_hexDigitChar _ (by omega))
      (hexVal_hexDigitChar _ (by omega))]
    rw [ih (fun x hx => hlt x (by simp [hx])) t]
    simp only [Prod.mk.injEq, List.cons_append, List.cons.injEq]
    refine ⟨⟨by omega, trivial⟩, trivial⟩

theorem quote_cons (c : Char) (cs : Str) :
    quote_plus (c :: cs) = encodeChar c ++ quote_plus cs := rfl

theorem uq_pct_head {s : Str} (hh : s.head? = some '%')
    (hne : (collectBytes s).1 ≠ []) :
    unquote_plus s =
      utf8Decode (collectBytes s).1 ++ unquote_plus (collectBytes s).2 := by
  match s, hh with
  | c :: rest, hh =>
    have hc : c = '%' := by simpa using hh
    subst hc
    exact uq_pct hne

theorem unquote_quote_aux : ∀ f : Nat, ∀ s : Str, s.length ≤ f →
    unquote_plus (quote_plus s) = s ∧
    utf8Decode (collectBytes (quote_plus s)).1 ++
      unquote_plus (collectBytes (quote_plus s)).2 = s := by
  intro f
  induction f with
  | zero =>
    intro s hs
    have : s = [] := List.eq_nil_of_length_eq_zero (by omega)
    subst this
    exact ⟨rfl, rfl⟩
  | succ g ih =>
    intro s hs
    match s with
    | [] => exact ⟨rfl, rfl⟩
    | c :: cs =>
      have hcs : cs.length ≤ g := by simpa using hs
      obtain ⟨ihM, ihS⟩ := ih cs hcs
      by_cases hsafe : isSafeChar c
      · have he : encodeChar c = [c] := by unfold encodeChar; rw [if_pos hsafe]
        have hplus : c ≠ '+' := fun h => by
          rw [h] at hsafe; exact absurd hsafe (by decide)
        have hpct : c ≠ '%' := fun h => by
          rw [h] at hsafe; exact absurd hsafe (by decide)
        have hq : quote_plus (c :: cs) = c :: quote_plus cs := by
          rw [quote_cons, he]; rfl
        refine ⟨?_, ?_⟩
        · rw [hq, uq_lit hplus hpct, ihM]
        · rw [hq, collectBytes_not_pct hpct]
          dsimp only
          rw [show utf8Decode ([] : List Nat) = [] from rfl, List.nil_append,
            uq_lit hplus hpct, ihM]
      · by_cases hspace : c = ' '
        · have he : encodeChar c = ['+'] := by
            unfold encodeChar; rw [if_neg hsafe, if_pos hspace]
          have hq : quote_plus (c :: cs) = '+' :: quote_plus cs := by
            rw [quote_cons, he]; rfl
          refine ⟨?_, ?_⟩
          · rw [hq, uq_plus, ihM, hspace]
          · rw [hq, collectBytes_not_pct (by decide : ('+' : Char) ≠ '%')]
            dsimp only
            rw [show utf8Decode ([] : List Nat) = [] from rfl, List.nil_append,
              uq_plus, ihM, hspace]
        · have he : encodeChar c = pctEnc (utf8Bytes c) := by
            unfold encodeChar; rw [if_neg hsafe, if_neg hspace]
          have hq : quote_plus (c :: cs) = pctEnc (utf8Bytes c) ++ quote_plus cs := by
            rw [quote_cons, he]
          have hcb : collectBytes (quote_plus (c :: cs)) =
              (utf8Bytes c ++ (collectBytes (quote_plus cs)).1,
               (collectBytes (quote_plus cs)).2) := by
            rw [hq]; exact collectBytes_pctEnc _ (utf8Bytes_lt c) _
          have hS : utf8Decode (collectBytes (quote_plus (c :: cs))).1 ++
              unquote_plus (collectBytes (quote_plus (c :: cs))).2 = c :: cs := by
            rw [hcb]
            dsimp only
            rw [utf8Decode_encode_cons]
            simp only [List.cons_append, List.cons.injEq]
            exact ⟨trivial, ihS⟩
          obtain ⟨b, bs, hb⟩ : ∃ b bs, utf8Bytes c = b :: bs := by
            cases hx : utf8Bytes c with
            | nil => exact absurd hx (utf8Bytes_ne_nil c)
            | cons b bs => exact ⟨b, bs, rfl⟩
          have hhead : (quote_plus (c :: cs)).head? = some '%' := by
            rw [hq, hb]
            simp [pctEnc, pctEncByte]
          have hne2 : (collectBytes (quote_plus (c :: cs))).1 ≠ [] := by
            rw [hcb]
            dsimp only
            rw [hb]
            simp
          exact ⟨by rw [uq_pct_head hhead hne2]; exact hS, hS⟩

/-- `unquote_plus` inverts `quote_plus`. -/
theorem unquote_quote (s : Str) : unquote_plus (quote_plus s) = s :=
  (unquote_quote_aux s.length s le_rfl).1

/-! ## Claim theorems -/

/-- C1: the claim says `classify_input` normalizes the raw model response by
lower-casing it and testing ordered keyword groups (so a response containing
"lab" with no higher-priority keyword yields `LabReport`).  The code instead
returns `res.text.strip()` unchanged, contradicting its own docstring
(`Returns: Prescription | LabReport | Food | Symptoms | Unknown`): on the raw
response "lab report detected" it returns the raw text, not "LabReport",
while the spec's normalization (`specNormalize`) yields "LabReport". -/
theorem c1_classifier_returns_raw_text :
    classify_input (Except.ok (str "lab report detected")) = str "lab report detected" ∧
    specNormalize (str "lab report detected") = str "LabReport" ∧
    classify_input (Except.ok (str "lab report detected")) ≠ str "LabReport" := by
  refine ⟨by decide, by decide, by decide⟩

/-- Transport stub for C2: attempt 0 fails, attempt 1 would succeed. -/
def retryStub : Nat → Except Str Str := fun n =>
  if n = 0 then Except.error (str "transient failure") else Except.ok (str "RECOVERED")

/-- C2 counterexample: the claim says the gateway retries once, so with a
transport failing on attempt 1 and succeeding on attempt 2 it should return
"RECOVERED".  The code makes a single attempt: it returns the placeholder,
not the second attempt's success result. -/
theorem c2_counterexample :
    (get_ai_response_run retryStub).1 = unavailableMsg ∧
    (get_ai_response_run retryStub).1 ≠ str "RECOVERED" := by
  refine ⟨by decide, by decide⟩

/-- C2 (amended): `get_ai_response` makes exactly one attempt against the
upstream model; it returns that attempt's text on success and the fixed
user-safe placeholder on failure, never raising (it is a total function of
the transport outcome); there is no retry. -/
theorem c2_amended_single_attempt (transport : Nat → Except Str Str) :
    (get_ai_response_run transport).2 = 1 ∧
    (get_ai_response_run transport).1 =
      (match transport 0 with
       | .ok t => t
       | .error _ => unavailableMsg) :=
  ⟨rfl, rfl⟩

/-- C3: for every tool (all four block on mismatch in the code), whenever
the classifier returns a label different from the tool's expected label the
flow outputs the blocking mismatch message and the analysis call count is
zero — the `ModelGateway` analysis call is never made. -/
theorem c3_no_analysis_call_on_block (t : Tool) (cOut aOut : Except Str Str)
    (symptoms : Str) (h : classify_input cOut ≠ expectedCategory t) :
    (tool_flow t cOut aOut symptoms).output = mismatchMsg t (classify_input cOut) ∧
    (tool_flow t cOut aOut symptoms).analysisCalls = 0 := by
  unfold tool_flow
  rw [if_pos h]
  exact ⟨rfl, rfl⟩

/-- C3 witness: the spec's end-to-end scenario — tool rx, classifier returns
Food, output is the blocking message and the analysis call count is 0. -/
theorem c3_witness :
    classify_input (Except.ok (str "Food")) ≠ expectedCategory Tool.rx ∧
    (tool_flow Tool.rx (Except.ok (str "Food")) (Except.ok (str "ANALYSIS")) []).output
      = mismatchMsg Tool.rx (str "Food") ∧
    (tool_flow Tool.rx (Except.ok (str "Food")) (Except.ok (str "ANALYSIS")) []).analysisCalls
      = 0 := by
  have h : classify_input (Except.ok (str "Food")) ≠ expectedCategory Tool.rx := by decide
  have hr := c3_no_analysis_call_on_block Tool.rx (Except.ok (str "Food"))
    (Except.ok (str "ANALYSIS")) [] h
  refine ⟨h, ?_, hr.2⟩
  rw [hr.1]
  decide

/-- C4: a text containing exactly one well-formed marker decomposes as
prefix ++ label-variant ++ name ++ newline ++ suffix; the patched output is
the prefix, then the replacement `mkLink name` (one markdown link whose
query value is `quote_plus` of the stripped name), then the suffix — all
other text unchanged; the query value percent-decodes back to the (stripped)
captured name; if the input contained no occurrence of the generated-link
pattern the output contains it exactly once; and the spec's concrete Crocin
example patches exactly as stated. -/
theorem c4_single_marker_patch {text : Str} (h1 : markerCount text = 1) :
    (∃ p lab nm a,
      text = p ++ lab ++ nm ++ '\n' :: a ∧
      lab.map Char.toLower = labelChars.map Char.toLower ∧
      '\n' ∉ nm ∧
      patch_medicine_links text = p ++ mkLink nm ++ a ∧
      unquote_plus (quote_plus (pyStrip nm)) = pyStrip nm) ∧
    (countOcc linkPat text = 0 → countOcc linkPat (patch_medicine_links text) = 1) ∧
    patch_medicine_links (str "**Brand Medicine:** Crocin\nOther line\n") =
      str "**Brand Medicine:** [Crocin](https://www.1mg.com/search/all?name=Crocin) 🔗\nOther line\n" := by
  refine ⟨?_, fun h0 => countOcc_patch_one h1 h0, by decide⟩
  obtain ⟨p, lab, nm, a, hs, hmap, hnl, _, hp⟩ := patch_of_markerCount_one h1
  exact ⟨p, lab, nm, a, hs, hmap, hnl, hp, unquote_quote _⟩

/-- C4 witness: the Crocin scenario, with the hypothesis that the text has
exactly one marker discharged by evaluation. -/
theorem c4_witness :
    markerCount (str "**Brand Medicine:** Crocin\nOther line\n") = 1 ∧
    patch_medicine_links (str "**Brand Medicine:** Crocin\nOther line\n") =
      str "**Brand Medicine:** [Crocin](https://www.1mg.com/search/all?name=Crocin) 🔗\nOther line\n" :=
  ⟨by decide,
    (@c4_single_marker_patch (str "**Brand Medicine:** Crocin\nOther line\n") (by decide)).2.2⟩

/-- C5: on any text in which the substitution scan finds zero marker
occurrences, `patch_medicine_links` is the identity (it is a total function
by construction); in particular a marker not terminated by a line break is
left untouched. -/
theorem c5_no_marker_identity (s : Str) :
    (markerCount s = 0 → patch_medicine_links s = s) ∧
    patch_medicine_links (str "**Brand Medicine:** Crocin") =
      str "**Brand Medicine:** Crocin" :=
  ⟨patch_of_markerCount_zero, by decide⟩

/-- C5 witness: a concrete marker-free text is returned unchanged. -/
theorem c5_witness :
    markerCount (str "no markers in this text") = 0 ∧
    patch_medicine_links (str "no markers in this text") = str "no markers in this text" :=
  ⟨by decide, (c5_no_marker_identity _).1 (by decide)⟩

/-- C6: when classification matches the tool's expected label, only the rx
tool pipes the analysis result through `patch_medicine_links`; lab, food and
sym return the `get_ai_response` text unpatched. -/
theorem c6_only_rx_patched (t : Tool) (cOut aOut : Except Str Str) (symptoms : Str)
    (h : classify_input cOut = expectedCategory t) :
    (tool_flow t cOut aOut symptoms).output =
      (if t = Tool.rx then patch_medicine_links (get_ai_response aOut)
       else get_ai_response aOut) := by
  unfold tool_flow
  rw [if_neg (fun hne => hne h)]

/-- C6 witness: the spec's end-to-end scenario — tool sym with a stubbed
gateway returning a fixed string; the final output equals that string
exactly, unpatched. -/
theorem c6_witness :
    classify_input (Except.ok (str "Symptoms")) = expectedCategory Tool.sym ∧
    (tool_flow Tool.sym (Except.ok (str "Symptoms")) (Except.ok (str "FIXED ANALYSIS"))
      (str "severe headache and fever for two days")).output = str "FIXED ANALYSIS" := by
  have h : classify_input (Except.ok (str "Symptoms")) = expectedCategory Tool.sym := by decide
  refine ⟨h, ?_⟩
  rw [c6_only_rx_patched Tool.sym _ _ _ h]
  decide

/-- C7: a failing model call during classification yields the label
"Unknown" rather than propagating the failure, and the surrounding tool flow
still produces its normal result (here: since "Unknown" never equals a
tool's expected label, the flow blocks with its user-facing message instead
of aborting). -/
theorem c7_classify_failure_unknown (e : Str) (t : Tool) (aOut : Except Str Str)
    (symptoms : Str) :
    classify_input (Except.error e) = str "Unknown" ∧
    (tool_flow t (Except.error e) aOut symptoms).output = mismatchMsg t (str "Unknown") ∧
    (tool_flow t (Except.error e) aOut symptoms).classifyCalls = 1 := by
  have h0 : classify_input (Except.error e) = str "Unknown" := rfl
  have h : classify_input (Except.error e) ≠ expectedCategory t := by
    rw [h0]; cases t <;> decide
  refine ⟨rfl, ?_, ?_⟩
  · unfold tool_flow
    rw [if_pos h]
    exact congrArg (mismatchMsg t) h0
  · unfold tool_flow
    rw [if_pos h]

/-- C8 counterexample: the claim says a classification result of Unknown is
exempt from blocking and the analysis proceeds; the code blocks on Unknown
like on any other mismatching label — analysis call count 0 and a blocking
message naming Unknown. -/
theorem c8_counterexample :
    (tool_flow Tool.rx (Except.ok (str "Unknown")) (Except.ok (str "ANALYSIS")) []).analysisCalls
      = 0 ∧
    (tool_flow Tool.rx (Except.ok (str "Unknown")) (Except.ok (str "ANALYSIS")) []).output =
      mismatchMsg Tool.rx (str "Unknown") := by
  refine ⟨by decide, by decide⟩

/-- C8 (amended): the operation blocks exactly when the classifier's label
differs from the tool's expected label — Unknown is not exempt; on a block
the output is the tool's mismatch message, and for the rx and lab tools that
message contains the detected label. -/
theorem c8_amended_block_iff (t : Tool) (cOut aOut : Except Str Str) (symptoms : Str) :
    ((tool_flow t cOut aOut symptoms).analysisCalls = 0 ↔
      classify_input cOut ≠ expectedCategory t) ∧
    (classify_input cOut ≠ expectedCategory t →
      (tool_flow t cOut aOut symptoms).output = mismatchMsg t (classify_input cOut)) ∧
    (∀ d : Str, d <:+: mismatchMsg Tool.rx d ∧ d <:+: mismatchMsg Tool.lab d) := by
  refine ⟨?_, ?_, ?_⟩
  · by_cases h : classify_input cOut ≠ expectedCategory t
    · unfold tool_flow
      rw [if_pos h]
      exact ⟨fun _ => h, fun _ => rfl⟩
    · unfold tool_flow
      rw [if_neg h]
      exact ⟨fun hx => absurd hx Nat.one_ne_zero, fun hx => absurd hx h⟩
  · intro h
    unfold tool_flow
    rw [if_pos h]
  · intro d
    exact ⟨⟨str "❌ This appears to be a **", str "**. Please use the correct section.", rfl⟩,
      ⟨str "❌ This appears to be a **", str "**. Please switch sections.", rfl⟩⟩

/-- C8 witness: a concrete blocked run (lab tool, classifier returns
Unknown) via the amended theorem. -/
theorem c8_witness :
    classify_input (Except.ok (str "Unknown")) ≠ expectedCategory Tool.lab ∧
    (tool_flow Tool.lab (Except.ok (str "Unknown")) (Except.ok (str "A")) []).output =
      mismatchMsg Tool.lab (str "Unknown") := by
  have h : classify_input (Except.ok (str "Unknown")) ≠ expectedCategory Tool.lab := by decide
  refine ⟨h, ?_⟩
  rw [(c8_amended_block_iff Tool.lab (Except.ok (str "Unknown")) (Except.ok (str "A")) []).2.1 h]
  decide

/-- C9 counterexample: the claim says blank symptom text is rejected before
any remote call; in the code the sym branch makes its classification model
call regardless — with blank text the classify call count is 1, not 0. -/
theorem c9_counterexample :
    (tool_flow Tool.sym (Except.ok (str "Unknown")) (Except.ok (str "A")) []).classifyCalls = 1 ∧
    ¬ (tool_flow Tool.sym (Except.ok (str "Unknown")) (Except.ok (str "A")) []).classifyCalls = 0 := by
  refine ⟨by decide, by decide⟩

/-- C9 (amended): blank symptom text is not validated; the classification
model call is still made (one call), with the falsy empty text merely
omitted from the request content (the request carries only the
classification prompt), and the flow then proceeds on the classification
result as usual. -/
theorem c9_amended_blank_not_validated (cOut aOut : Except Str Str) :
    (tool_flow Tool.sym cOut aOut []).classifyCalls = 1 ∧
    (tool_flow Tool.sym cOut aOut []).classifyContent = [Part.promptPart classifyPrompt] := by
  unfold tool_flow
  split_ifs <;> exact ⟨rfl, rfl⟩

/-- C10: a marker whose label appears in any (for example non-canonical)
casing is still matched; the replacement always carries the canonical
literal `**Brand Medicine:** `, and the captured name is stripped of
surrounding whitespace before being used both as the link text and as the
encoded query value. -/
theorem c10_case_insensitive_label {lab nm : Str} (rest : Str)
    (hmap : lab.map Char.toLower = labelChars.map Char.toLower)
    (hnl : '\n' ∉ nm) :
    patch_medicine_links (lab ++ nm ++ '\n' :: rest) =
      (str "**Brand Medicine:** [" ++ pyStrip nm ++ linkPat ++
        quote_plus (pyStrip nm) ++ str ") 🔗\n") ++ patch_medicine_links rest := by
  rw [patch_match (matchMarker_build hmap hnl rest)]
  rfl

/-- C10 witness: a lower-cased label with a space-padded name is matched,
canonicalized and stripped. -/
theorem c10_witness :
    (str "**brand medicine:** ").map Char.toLower = labelChars.map Char.toLower ∧
    '\n' ∉ str " Aspirin " ∧
    patch_medicine_links (str "**brand medicine:**  Aspirin \nend") =
      str "**Brand Medicine:** [Aspirin](https://www.1mg.com/search/all?name=Aspirin) 🔗\nend" := by
  refine ⟨by decide, by decide, ?_⟩
  rw [show str "**brand medicine:**  Aspirin \nend" =
    str "**brand medicine:** " ++ str " Aspirin " ++ '\n' :: str "end" from rfl]
  rw [c10_case_insensitive_label (str "end") (by decide) (by decide)]
  decide

end Threpsi
